import Mathlib

/-! rct `CpuUsage`: the sampling loop and the accessor

A shallow embedding of `src/rct/CpuUsage.cpp`.

* Machine integers are `Nat`/`Int` with the wrap-around written out where a
  conversion narrows (`uint32_t lastUsage` receives an `int64_t`).
* `float` and `double` values are modelled by `Fp`: a sign with an exact rational
  magnitude, the two infinities and NaN.  Every arithmetic operation computes the
  exact result and rounds it to the target format (round to nearest, ties to
  even, gradual underflow, overflow to infinity), as IEEE 754 prescribes.
* `assert` is modelled as enabled (the file includes `<assert.h>` and defines no
  `NDEBUG`): a failed assertion aborts, modelled by `none` / `LoopResult.aborted`.
* The mutex makes the block of `collectData` and the body of `CpuUsage::usage`
  atomic; the process model `Proc` interleaves them as whole steps.
-/

namespace Rct

/-! ## Binary floating point -/

/-- A binary interchange format: precision (with the hidden bit) and exponent range. -/
structure Format where
  prec : Nat
  emin : Int
  emax : Int

/-- The C++ `float` on the supported targets. -/
def binary32 : Format := ⟨24, -126, 127⟩

/-- The C++ `double` on the supported targets. -/
def binary64 : Format := ⟨53, -1022, 1023⟩

/-- The rational `2 ^ k` for an integer exponent. -/
def pow2 (k : Int) : ℚ :=
  if 0 ≤ k then ((2 ^ k.toNat : Nat) : ℚ) else 1 / ((2 ^ (-k).toNat : Nat) : ℚ)

/-- Binary logarithm by repeated halving, `fuel` bounding the number of halvings. -/
def log2Fuel : Nat → Nat → Nat
  | 0, _ => 0
  | fuel + 1, n => if 2 ≤ n then log2Fuel fuel (n / 2) + 1 else 0

/-- Floor of the binary logarithm of a natural number (`0` at `0`). -/
def log2 (n : Nat) : Nat := log2Fuel n n

/-- Floor of the binary logarithm of a positive rational. -/
def ilog2 (q : ℚ) : Int :=
  let k : Int := (log2 q.num.natAbs : Int) - (log2 q.den : Int)
  if pow2 k ≤ q then k else k - 1

/-- Nearest natural number to a non-negative rational, ties to the even one. -/
def roundNearestEven (x : ℚ) : Nat :=
  let f := x.num.toNat / x.den
  let twice := 2 * (x.num.toNat % x.den)
  if twice < x.den then f
  else if x.den < twice then f + 1
  else if f % 2 = 0 then f else f + 1

/-- Round a non-negative magnitude to the format; `none` is overflow. -/
def Format.round (F : Format) (q : ℚ) : Option ℚ :=
  if q = 0 then some 0
  else
    let e := max (ilog2 q) F.emin
    let ulp := pow2 (e - ((F.prec : Int) - 1))
    let r := (roundNearestEven (q / ulp) : ℚ) * ulp
    if pow2 (F.emax + 1) ≤ r then none else some r

/-- A floating-point datum: finite (sign, magnitude), infinite, or NaN. -/
inductive Fp where
  | fin (neg : Bool) (mag : ℚ)
  | inf (neg : Bool)
  | nan
deriving DecidableEq

namespace Fp

/-- Positive zero, the value of the literal `0`. -/
def zero : Fp := .fin false 0

/-- The value of the literal `1.`. -/
def one : Fp := .fin false 1

/-- The signed value of a finite datum. -/
def signed (neg : Bool) (mag : ℚ) : ℚ := if neg then -mag else mag

/-- Round a signed magnitude into the format. -/
def pack (F : Format) (neg : Bool) (mag : ℚ) : Fp :=
  match F.round mag with
  | some r => .fin neg r
  | none => .inf neg

/-- Conversion of an unsigned integer to the format. -/
def ofNat (F : Format) (n : Nat) : Fp := pack F false (n : ℚ)

/-- Conversion of a signed integer to the format. -/
def ofInt (F : Format) (n : Int) : Fp := pack F (decide (n < 0)) (n.natAbs : ℚ)

/-- The datum of the format nearest to a rational (a decimal literal such as `0.3f`). -/
def ofRat (F : Format) (q : ℚ) : Fp := pack F (decide (q < 0)) |q|

/-- Conversion of a datum to a (narrower) format, as `double` to `float`. -/
def convert (F : Format) : Fp → Fp
  | .fin s a => pack F s a
  | x => x

/-- IEEE division with the result rounded to `F`. -/
def div (F : Format) : Fp → Fp → Fp
  | .nan, _ => .nan
  | _, .nan => .nan
  | .inf _, .inf _ => .nan
  | .inf s, .fin t _ => .inf (xor s t)
  | .fin s _, .inf t => .fin (xor s t) 0
  | .fin s a, .fin t b =>
    if b = 0 then (if a = 0 then .nan else .inf (xor s t))
    else pack F (xor s t) (a / b)

/-- IEEE subtraction with the result rounded to `F`. -/
def sub (F : Format) : Fp → Fp → Fp
  | .nan, _ => .nan
  | _, .nan => .nan
  | .inf s, .inf t => if s = t then .nan else .inf s
  | .inf s, .fin _ _ => .inf s
  | .fin _ _, .inf t => .inf (!t)
  | .fin s a, .fin t b =>
    let v := signed s a - signed t b
    if v = 0 then .fin (s && !t) 0 else pack F (decide (v < 0)) |v|

/-- The comparison `a < b` of C++ (false as soon as a NaN is involved). -/
def lt : Fp → Fp → Bool
  | .nan, _ => false
  | _, .nan => false
  | .inf s, .inf t => s && !t
  | .inf s, .fin _ _ => s
  | .fin _ _, .inf t => !t
  | .fin s a, .fin t b => decide (signed s a < signed t b)

/-- Whether the datum is a zero of either sign. -/
def isZero : Fp → Bool
  | .fin _ a => decide (a = 0)
  | _ => false

/-- Whether the datum is a finite number. -/
def isFinite : Fp → Bool
  | .fin _ _ => true
  | _ => false

/-- Data that are not below zero: sign bit clear (a finite magnitude, `+inf`), or NaN. -/
def NonNeg : Fp → Prop
  | .fin s m => s = false ∧ 0 ≤ m
  | .inf s => s = false
  | .nan => True

end Fp

/-! ## The program -/

/-- The build target selected by the `OS_Linux` / `OS_Darwin` macros. -/
inductive Platform where
  | Linux
  | Darwin
  | Other
deriving DecidableEq

/-- The condition `defined(OS_Linux) || defined(OS_Darwin)`. -/
def Platform.hasTicks : Platform → Bool
  | .Linux => true
  | .Darwin => true
  | .Other => false

/-- The macro `SLEEP_TIME` (microseconds). -/
def SLEEP_TIME : Nat := 1000000

/-- The fields of `struct CpuData` that hold data (`mutex` and `thread` are in `Proc`). -/
structure CpuData where
  lastUsage : Nat
  lastTime : Nat
  usage : Fp
  hz : Fp
  cores : Nat
deriving DecidableEq

/-- What the operating system answers to one counter read.
`procStat`: the four numbers parsed from the first line of `/proc/stat`
(user, nice, system, idle), `none` when `fopen` fails or `fscanf` does not
convert five items.  `hostInfo`: per processor the user, system and nice
ticks of `host_processor_info`, `none` when it does not report `KERN_SUCCESS`. -/
structure OsReply where
  procStat : Option (Nat × Nat × Nat × Nat)
  hostInfo : Option (List (Int × Int × Int))

/-- Two's-complement reduction of an integer to `w` bits, signed. -/
def wrapSigned (w : Nat) (x : Int) : Int :=
  (x + 2 ^ (w - 1)) % 2 ^ w - 2 ^ (w - 1)

/-- The loop of `currentUsage` on Darwin: the three `integer_t` entries of a
processor are added as `int`, the sum is accumulated into the `int64_t`. -/
def sumTicks : Int → List (Int × Int × Int) → Int
  | acc, [] => acc
  | acc, (user, system, nice) :: rest =>
    sumTicks (wrapSigned 64 (acc + wrapSigned 32 (user + system + nice))) rest

/-- The function `currentUsage`: the counter, or `-1`. -/
def currentUsage : Platform → OsReply → Int
  | .Linux, os =>
    match os.procStat with
    | none => -1
    | some (_, _, _, idle) => ((idle % 2 ^ 32 : Nat) : Int)
  | .Darwin, os =>
    match os.hostInfo with
    | some cpus => sumTicks 0 cpus
    | none => -1
  | .Other, _ => -1

/-- The local `deltaUsage`: the `int64_t` difference stored in a `uint32_t`. -/
def deltaUsage (s : CpuData) (usage : Int) : Nat :=
  ((wrapSigned 64 (usage - (s.lastUsage : Int))) % 2 ^ 32).toNat

/-- The local `deltaTime`: a `uint64_t` difference. -/
def deltaTime (s : CpuData) (time : Nat) : Nat :=
  (time + 2 ^ 64 - s.lastTime) % 2 ^ 64

/-- The local `timeRatio`: the `uint64_t` quotient converted to `float`. -/
def timeRatio (s : CpuData) (time : Nat) : Fp :=
  Fp.ofNat binary32 (deltaTime s time / (SLEEP_TIME / 1000))

/-- The right-hand side of the assignment to `sData.usage` in the else branch. -/
def ratio (s : CpuData) (usage : Int) (time : Nat) : Fp :=
  Fp.div binary32
    (Fp.div binary32 (Fp.div binary32 (Fp.ofNat binary32 (deltaUsage s usage)) s.hz)
      (Fp.ofNat binary32 s.cores))
    (timeRatio s time)

/-- The block of `collectData` under the lock, for a counter `usage` read at
`time`; `none` when the assertion `sData.lastTime < time` fails. -/
def sample (p : Platform) (s : CpuData) (usage : Int) (time : Nat) : Option CpuData :=
  if s.lastTime < time then
    let published : Fp :=
      if 0 < s.lastTime then
        if usage < (s.lastUsage : Int) then Fp.zero
        else if p.hasTicks then ratio s usage time
        else s.usage
      else s.usage
    some { s with usage := published, lastUsage := (usage % 2 ^ 32).toNat, lastTime := time }
  else none

/-- How a run of the loop stands after the readings supplied so far. -/
inductive LoopResult where
  | running (s : CpuData)
  | returned (s : CpuData)
  | aborted (s : CpuData)
deriving DecidableEq

/-- The body of the `for (;;)` of `collectData` for one counter reply and one
clock value: `returned` on the `break`, `aborted` on a failed assertion,
`running` with the new shared data otherwise (the loop then sleeps and repeats). -/
def loopBody (p : Platform) (s : CpuData) (os : OsReply) (time : Nat) : LoopResult :=
  let usage := currentUsage p os
  if usage = -1 then .returned s
  else
    match sample p s usage time with
    | none => .aborted s
    | some s1 => .running s1

/-- The function `collectData`, fed one (counter reply, clock value) pair per
iteration; `running` when the pairs are used up and the loop would go on. -/
def collectData (p : Platform) : CpuData → List (OsReply × Nat) → LoopResult
  | s, [] => .running s
  | s, (os, time) :: rest =>
    match loopBody p s os time with
    | .running s1 => collectData p s1 rest
    | r => r

/-- The results of `sysconf(_SC_CLK_TCK)` and `sysconf(_SC_NPROCESSORS_ONLN)`. -/
structure Sysconf where
  clkTck : Int
  nprocessorsOnln : Int

/-- State of the thread stored in `sData.thread`. -/
inductive Thread where
  | notStarted
  | looping
  | returned
  | aborted
deriving DecidableEq

/-- The process: the once flag, the shared data and the collector thread. -/
structure Proc where
  sFlag : Bool
  sData : CpuData
  thread : Thread
  started : Nat
deriving DecidableEq

/-- The process at start: statics are zero-initialised. -/
def Proc.initial : Proc :=
  { sFlag := false
    sData := { lastUsage := 0, lastTime := 0, usage := Fp.zero, hz := Fp.zero, cores := 0 }
    thread := .notStarted
    started := 0 }

/-- The lambda passed to `std::call_once`. -/
def initOnce (p : Platform) (sys : Sysconf) (P : Proc) : Proc :=
  { sFlag := true
    sData :=
      { usage := Fp.zero
        lastUsage := 0
        lastTime := 0
        hz := if p.hasTicks then Fp.ofInt binary32 sys.clkTck else P.sData.hz
        cores := if p.hasTicks then (sys.nprocessorsOnln % 2 ^ 32).toNat else P.sData.cores }
    thread := .looping
    started := P.started + 1 }

/-- The function `CpuUsage::usage`: the value returned and the process afterwards.
The `float` operand is promoted to `double` unchanged, the difference is formed in
`double` and converted to the `float` return type. -/
def CpuUsage.usage (p : Platform) (sys : Sysconf) (P : Proc) : Fp × Proc :=
  let P1 := if P.sFlag then P else initOnce p sys P
  (Fp.convert binary32 (Fp.sub binary64 Fp.one P1.sData.usage), P1)

/-- One iteration of the loop of `collectData` run by the collector thread. -/
def iterate (p : Platform) (P : Proc) (os : OsReply) (time : Nat) : Proc :=
  match P.thread with
  | .looping =>
    match loopBody p P.sData os time with
    | .running s1 => { P with sData := s1 }
    | .returned _ => { P with thread := .returned }
    | .aborted _ => { P with thread := .aborted }
  | _ => P

/-- What happens next in the process. -/
inductive Event where
  | call
  | iter (os : OsReply) (time : Nat)

/-- Run a schedule; the values returned by the calls of `CpuUsage::usage`, in
order, and the final process.  After a failed assertion nothing runs any more. -/
def run (p : Platform) (sys : Sysconf) : Proc → List Event → List Fp × Proc
  | P, [] => ([], P)
  | P, ev :: rest =>
    if P.thread = .aborted then ([], P)
    else
      match ev with
      | .call =>
        let r := CpuUsage.usage p sys P
        let out := run p sys r.2 rest
        (r.1 :: out.1, out.2)
      | .iter os time => run p sys (iterate p P os time) rest


/-- A successful read of `/proc/stat` whose idle field is `idle`. -/
def procStatIdle (idle : Nat) : OsReply := { procStat := some (0, 0, 0, idle), hostInfo := none }

/-- A successful `host_processor_info` for four processors, each with `2 ^ 30` user
ticks, and `extra` nice ticks on the first. -/
def hostInfoFour (extra : Int) : OsReply :=
  { procStat := none
    hostInfo := some [(2 ^ 30, 0, extra), (2 ^ 30, 0, 0), (2 ^ 30, 0, 0), (2 ^ 30, 0, 0)] }

/-! ## Facts about rounding -/

theorem pow2_eq (k : Int) : pow2 k = (2 : ℚ) ^ k := by
  unfold pow2
  split
  · rename_i h
    obtain ⟨n, rfl⟩ : ∃ n : ℕ, k = (n : Int) := ⟨k.toNat, by omega⟩
    simp
  · rename_i h
    obtain ⟨n, rfl⟩ : ∃ n : ℕ, k = -(n : Int) := ⟨(-k).toNat, by omega⟩
    simp

theorem pow2_pos (k : Int) : 0 < pow2 k := by
  rw [pow2_eq]; positivity

theorem pow2_le_pow2 {j k : Int} (h : j ≤ k) : pow2 j ≤ pow2 k := by
  rw [pow2_eq, pow2_eq]
  exact zpow_le_zpow_right₀ (by norm_num) h

theorem pow2_natCast (n : Nat) : pow2 (n : Int) = ((2 ^ n : Nat) : ℚ) := by
  rw [pow2_eq]; simp

theorem pow2_sub (j k : Int) : pow2 (j - k) = pow2 j / pow2 k := by
  rw [pow2_eq, pow2_eq, pow2_eq, zpow_sub₀ (by norm_num)]

theorem log2Fuel_spec : ∀ fuel n : Nat, n ≤ fuel → n ≠ 0 →
    2 ^ log2Fuel fuel n ≤ n ∧ n < 2 ^ (log2Fuel fuel n + 1)
  | 0, n, h, h0 => by omega
  | fuel + 1, n, h, h0 => by
    unfold log2Fuel
    split
    · rename_i h2
      have ih := log2Fuel_spec fuel (n / 2) (by omega) (by omega)
      obtain ⟨ih1, ih2⟩ := ih
      rw [pow_succ] at ih2 ⊢
      rw [pow_succ (2 : Nat) (log2Fuel fuel (n / 2) + 1), pow_succ]
      constructor <;> omega
    · simp; omega

theorem log2_spec (n : Nat) (h0 : n ≠ 0) : 2 ^ log2 n ≤ n ∧ n < 2 ^ (log2 n + 1) :=
  log2Fuel_spec n n (le_refl n) h0

theorem pow2_ilog2_le (q : ℚ) (hq : 0 < q) : pow2 (ilog2 q) ≤ q := by
  unfold ilog2
  simp only
  split
  · assumption
  · have hnum : 0 < q.num := Rat.num_pos.mpr hq
    have hden : 0 < q.den := q.den_pos
    have ha := (log2_spec q.num.natAbs (by omega)).1
    have hb := (log2_spec q.den (by omega)).2
    have e : ((log2 q.num.natAbs : Int) - (log2 q.den : Int) - 1)
        = (log2 q.num.natAbs : Int) - ((log2 q.den + 1 : Nat) : Int) := by push_cast; ring
    rw [e, pow2_sub, pow2_natCast, pow2_natCast]
    have hq' : q = (q.num.natAbs : ℚ) / (q.den : ℚ) := by
      have h5 : ((q.num.natAbs : Int) : ℚ) = (q.num : ℚ) := by
        rw [Int.natAbs_of_nonneg hnum.le]
      have h6 : ((q.num.natAbs : Int) : ℚ) = (q.num.natAbs : ℚ) := Int.cast_natCast _
      conv_lhs => rw [← Rat.num_div_den q]
      rw [← h5, h6]
    have h1 : ((2 ^ log2 q.num.natAbs : Nat) : ℚ) ≤ (q.num.natAbs : ℚ) := by exact_mod_cast ha
    have h2 : ((q.den : Nat) : ℚ) ≤ ((2 ^ (log2 q.den + 1) : Nat) : ℚ) := by exact_mod_cast hb.le
    have h3 : (0 : ℚ) < (q.den : ℚ) := by exact_mod_cast hden
    have h4 : (0 : ℚ) ≤ ((2 ^ log2 q.num.natAbs : Nat) : ℚ) := by positivity
    calc ((2 ^ log2 q.num.natAbs : Nat) : ℚ) / ((2 ^ (log2 q.den + 1) : Nat) : ℚ)
        ≤ (q.num.natAbs : ℚ) / (q.den : ℚ) := div_le_div₀ (h4.trans h1) h1 h3 h2
      _ = q := hq'.symm

theorem rat_eq_toNat_div (x : ℚ) (hx : 0 ≤ x) : x = (x.num.toNat : ℚ) / (x.den : ℚ) := by
  have hnum : 0 ≤ x.num := Rat.num_nonneg.mpr hx
  have h5 : ((x.num.toNat : Int) : ℚ) = (x.num : ℚ) := by
    rw [Int.toNat_of_nonneg hnum]
  have h6 : ((x.num.toNat : Int) : ℚ) = (x.num.toNat : ℚ) := Int.cast_natCast _
  conv_lhs => rw [← Rat.num_div_den x]
  rw [← h5, h6]

theorem roundNearestEven_le (x : ℚ) (hx : 0 ≤ x) (N : Nat) (h : x ≤ (N : ℚ)) :
    roundNearestEven x ≤ N := by
  have hd : 0 < x.den := x.den_pos
  have hdq : (0 : ℚ) < (x.den : ℚ) := by exact_mod_cast hd
  have hle : x.num.toNat ≤ x.den * N := by
    have h1 : (x.num.toNat : ℚ) / (x.den : ℚ) ≤ (N : ℚ) := by
      rw [← rat_eq_toNat_div x hx]; exact h
    rw [div_le_iff₀ hdq] at h1
    have h2 : (x.num.toNat : ℚ) ≤ ((x.den * N : Nat) : ℚ) := by
      push_cast; linarith
    exact_mod_cast h2
  have hf : x.num.toNat / x.den ≤ N := Nat.div_le_of_le_mul hle
  have hlt : 0 < x.num.toNat % x.den → x.num.toNat / x.den < N := by
    intro hr
    apply Nat.div_lt_of_lt_mul
    rcases Nat.lt_or_ge x.num.toNat (x.den * N) with h3 | h3
    · exact h3
    · have h4 : x.num.toNat = x.den * N := le_antisymm hle h3
      rw [h4, Nat.mul_mod_right] at hr
      omega
  unfold roundNearestEven
  simp only
  split
  · exact hf
  · split
    · have := hlt (by omega); omega
    · split
      · exact hf
      · have := hlt (by omega); omega

theorem le_roundNearestEven (x : ℚ) (hx : 0 ≤ x) (N : Nat) (h : (N : ℚ) ≤ x) :
    N ≤ roundNearestEven x := by
  have hd : 0 < x.den := x.den_pos
  have hdq : (0 : ℚ) < (x.den : ℚ) := by exact_mod_cast hd
  have hle : N * x.den ≤ x.num.toNat := by
    have h1 : (N : ℚ) ≤ (x.num.toNat : ℚ) / (x.den : ℚ) := by
      rw [← rat_eq_toNat_div x hx]; exact h
    rw [le_div_iff₀ hdq] at h1
    exact_mod_cast h1
  have hf : N ≤ x.num.toNat / x.den := (Nat.le_div_iff_mul_le hd).mpr hle
  unfold roundNearestEven
  simp only
  split
  · exact hf
  · split
    · omega
    · split <;> omega

theorem scaled_round_le (q ulp : ℚ) (hq : 0 ≤ q) (hu : 0 < ulp) (N : Nat)
    (h : q ≤ (N : ℚ) * ulp) : (roundNearestEven (q / ulp) : ℚ) * ulp ≤ (N : ℚ) * ulp := by
  have h1 : q / ulp ≤ (N : ℚ) := by rw [div_le_iff₀ hu]; exact h
  have h2 := roundNearestEven_le (q / ulp) (div_nonneg hq hu.le) N h1
  have h3 : (roundNearestEven (q / ulp) : ℚ) ≤ (N : ℚ) := by exact_mod_cast h2
  exact mul_le_mul_of_nonneg_right h3 hu.le

theorem le_scaled_round (q ulp : ℚ) (hq : 0 ≤ q) (hu : 0 < ulp) (N : Nat)
    (h : (N : ℚ) * ulp ≤ q) : (N : ℚ) * ulp ≤ (roundNearestEven (q / ulp) : ℚ) * ulp := by
  have h1 : (N : ℚ) ≤ q / ulp := by rw [le_div_iff₀ hu]; exact h
  have h2 := le_roundNearestEven (q / ulp) (div_nonneg hq hu.le) N h1
  have h3 : (N : ℚ) ≤ (roundNearestEven (q / ulp) : ℚ) := by exact_mod_cast h2
  exact mul_le_mul_of_nonneg_right h3 hu.le

theorem round_nonneg (F : Format) (q r : ℚ) (h : F.round q = some r) : 0 ≤ r := by
  unfold Format.round at h
  split at h
  · simp at h; rw [← h]
  · simp only at h
    split at h
    · simp at h
    · simp only [Option.some.injEq] at h
      rw [← h]
      exact mul_nonneg (by positivity) (pow2_pos _).le

/-- The product of the natural number `2 ^ n` with `2 ^ (-n)`. -/
theorem natPow_mul_pow2_neg (k : Int) (hk : k ≤ 0) :
    ((2 ^ (-k).toNat : Nat) : ℚ) * pow2 k = 1 := by
  obtain ⟨n, rfl⟩ : ∃ n : ℕ, k = -(n : Int) := ⟨(-k).toNat, by omega⟩
  rw [pow2_eq]
  simp

theorem ilog2_nonpos (q : ℚ) (hq : 0 < q) (h1 : q ≤ 1) : ilog2 q ≤ 0 := by
  by_contra hc
  have h2 : pow2 1 ≤ pow2 (ilog2 q) := pow2_le_pow2 (by omega)
  have h3 := pow2_ilog2_le q hq
  have h4 : pow2 1 = 2 := by rw [pow2_eq]; norm_num
  linarith

theorem round_le_one (F : Format) (hmin : F.emin ≤ 0) (hprec : 1 ≤ F.prec) (hmax : 0 ≤ F.emax)
    (q : ℚ) (hq0 : 0 ≤ q) (hq1 : q ≤ 1) : ∃ r, F.round q = some r ∧ 0 ≤ r ∧ r ≤ 1 := by
  rcases eq_or_lt_of_le hq0 with h0 | hpos
  · refine ⟨0, ?_, le_refl _, zero_le_one⟩
    simp [Format.round, ← h0]
  · have hk : max (ilog2 q) F.emin - ((F.prec : Int) - 1) ≤ 0 := by
      have := ilog2_nonpos q hpos hq1
      have : max (ilog2 q) F.emin ≤ 0 := max_le this hmin
      omega
    have hu := pow2_pos (max (ilog2 q) F.emin - ((F.prec : Int) - 1))
    have hN := natPow_mul_pow2_neg _ hk
    have hr := scaled_round_le q _ hq0 hu _ (by rw [hN]; exact hq1)
    rw [hN] at hr
    have hbig : (2 : ℚ) ≤ pow2 (F.emax + 1) := by
      have h4 : pow2 1 = 2 := by rw [pow2_eq]; norm_num
      rw [← h4]; exact pow2_le_pow2 (by omega)
    refine ⟨_, ?_, mul_nonneg (by positivity) hu.le, hr⟩
    unfold Format.round
    rw [if_neg hpos.ne']
    simp only
    rw [if_neg (by linarith)]

theorem one_le_round (F : Format) (hmin : F.emin ≤ 0) (hprec : 1 ≤ F.prec)
    (q r : ℚ) (hq : 1 ≤ q) (h : F.round q = some r) : 1 ≤ r := by
  have hpos : 0 < q := by linarith
  unfold Format.round at h
  rw [if_neg hpos.ne'] at h
  simp only at h
  split at h
  · simp at h
  · simp only [Option.some.injEq] at h
    rw [← h]
    have hu := pow2_pos (max (ilog2 q) F.emin - ((F.prec : Int) - 1))
    rcases le_or_lt (max (ilog2 q) F.emin - ((F.prec : Int) - 1)) 0 with hk | hk
    · have hN := natPow_mul_pow2_neg _ hk
      have hr := le_scaled_round q _ hpos.le hu _ (by rw [hN]; exact hq)
      rw [hN] at hr
      exact hr
    · have he : max (ilog2 q) F.emin = ilog2 q := by
        rcases le_total (ilog2 q) F.emin with h5 | h5
        · rw [max_eq_right h5] at hk; omega
        · exact max_eq_left h5
      rw [he] at hk hu ⊢
      have hlow := pow2_ilog2_le q hpos
      have hN : ((2 ^ (F.prec - 1) : Nat) : ℚ) * pow2 (ilog2 q - ((F.prec : Int) - 1))
          = pow2 (ilog2 q) := by
        have e1 : ((F.prec : Int) - 1) = ((F.prec - 1 : Nat) : Int) := by omega
        rw [e1, pow2_sub, pow2_natCast]
        have : (0 : ℚ) < ((2 ^ (F.prec - 1) : Nat) : ℚ) := by positivity
        field_simp
      have hr := le_scaled_round q _ hpos.le hu _ (by rw [hN]; exact hlow)
      rw [hN] at hr
      have h1 : pow2 0 ≤ pow2 (ilog2 q) := pow2_le_pow2 (by omega)
      have h0 : pow2 0 = 1 := by rw [pow2_eq]; norm_num
      linarith

/-! ## Integer facts of the sample step -/

theorem ofNat_isZero (F : Format) (hmin : F.emin ≤ 0) (hprec : 1 ≤ F.prec) (n : Nat) :
    (Fp.ofNat F n).isZero = decide (n = 0) := by
  rcases Nat.eq_zero_or_pos n with h0 | hpos
  · subst h0
    simp [Fp.ofNat, Fp.pack, Format.round, Fp.isZero]
  · have hq : (1 : ℚ) ≤ (n : ℚ) := by exact_mod_cast hpos
    have hn : n ≠ 0 := by omega
    unfold Fp.ofNat Fp.pack
    cases hr : F.round (n : ℚ) with
    | none => simp [Fp.isZero, hn]
    | some r =>
      have := one_le_round F hmin hprec _ r hq hr
      have hr0 : r ≠ 0 := by linarith
      simp [Fp.isZero, hn, hr0]

theorem div_zero_not_finite (F : Format) (a : Fp) (s : Bool) :
    (Fp.div F a (.fin s 0)).isFinite = false := by
  cases a with
  | nan => rfl
  | inf t => rfl
  | fin t m =>
    by_cases hm : m = 0 <;> simp [Fp.div, hm, Fp.isFinite]

theorem sample_of_lt (p : Platform) (s : CpuData) (usage : Int) (time : Nat)
    (h : s.lastTime < time) :
    sample p s usage time = some
      { s with
        usage :=
          if 0 < s.lastTime then
            if usage < (s.lastUsage : Int) then Fp.zero
            else if p.hasTicks then ratio s usage time
            else s.usage
          else s.usage
        lastUsage := (usage % 2 ^ 32).toNat
        lastTime := time } := by
  unfold sample
  rw [if_pos h]

/-- A later sample whose counter is below the stored `lastUsage` publishes `0`. -/
theorem sample_wraparound_zero (p : Platform) (s : CpuData) (usage : Int) (time : Nat)
    (hfirst : 0 < s.lastTime) (hlt : s.lastTime < time) (hwrap : usage < (s.lastUsage : Int)) :
    ∃ s1, sample p s usage time = some s1 ∧ s1.usage = Fp.zero := by
  refine ⟨_, sample_of_lt p s usage time hlt, ?_⟩
  simp only
  rw [if_pos hfirst, if_pos hwrap]

/-- C10: `lastUsage` keeps the counter modulo 2^32; still, for consecutive samples
with counters `0 ≤ prev ≤ new < 2^63` and `new - prev < 2^32` the wraparound
test `lastUsage > usage` is false, `deltaUsage` is exactly `new - prev`, and the
next sample publishes the ratio formed from it. -/
theorem lastUsage_mod_delta_exact (p : Platform) (s s1 : CpuData) (prev new : Int) (t1 : Nat)
    (h0 : 0 ≤ prev) (hle : prev ≤ new) (h63 : new < 2 ^ 63) (hd : new - prev < 2 ^ 32)
    (hs : sample p s prev t1 = some s1) :
    (s1.lastUsage : Int) = prev % 2 ^ 32 ∧
    ¬ (new < (s1.lastUsage : Int)) ∧
    (deltaUsage s1 new : Int) = new - prev ∧
    ∀ t2, t1 < t2 → p.hasTicks = true →
      ∃ s2, sample p s1 new t2 = some s2 ∧ s2.usage = ratio s1 new t2 := by
  have hlt : s.lastTime < t1 := by
    by_contra hc
    simp [sample, hc] at hs
  rw [sample_of_lt p s prev t1 hlt] at hs
  simp only [Option.some.injEq] at hs
  have hlu : (s1.lastUsage : Int) = prev % 2 ^ 32 := by
    rw [← hs]
    simp only
    rw [Int.toNat_of_nonneg (Int.emod_nonneg _ (by norm_num))]
  have hlt1 : s1.lastTime = t1 := by rw [← hs]
  have hnw : ¬ (new < (s1.lastUsage : Int)) := by
    rw [hlu]; omega
  refine ⟨hlu, hnw, ?_, ?_⟩
  · unfold deltaUsage wrapSigned
    rw [Int.toNat_of_nonneg (Int.emod_nonneg _ (by norm_num)), hlu]
    omega
  · intro t2 ht2 hp
    refine ⟨_, sample_of_lt p s1 new t2 (by omega), ?_⟩
    simp only
    rw [if_pos (by omega), if_neg hnw, if_pos hp]

theorem lastUsage_mod_delta_exact_witness :
    (deltaUsage
        { lastUsage := 3, lastTime := 1000, usage := Fp.zero, hz := Fp.zero, cores := 1 }
        (2 ^ 32 + 10) : Int) = 2 ^ 32 + 10 - (2 ^ 32 + 3) :=
  (lastUsage_mod_delta_exact .Linux
    { lastUsage := 0, lastTime := 0, usage := Fp.zero, hz := Fp.zero, cores := 1 }
    { lastUsage := 3, lastTime := 1000, usage := Fp.zero, hz := Fp.zero, cores := 1 }
    (2 ^ 32 + 3) (2 ^ 32 + 10) 1000 (by decide) (by decide) (by decide) (by decide)
    (by decide)).2.2.1

theorem loopBody_running (p : Platform) (s s1 : CpuData) (os : OsReply) (time : Nat)
    (h : loopBody p s os time = .running s1) :
    currentUsage p os ≠ -1 ∧ sample p s (currentUsage p os) time = some s1 := by
  unfold loopBody at h
  simp only at h
  split at h
  · simp at h
  · rename_i hne
    cases hs : sample p s (currentUsage p os) time with
    | none => rw [hs] at h; simp at h
    | some s2 =>
      rw [hs] at h
      simp only [LoopResult.running.injEq] at h
      exact ⟨hne, by rw [h]⟩

theorem collectData_lastTime_le (p : Platform) : ∀ (rs : List (OsReply × Nat)) (s s1 : CpuData),
    (collectData p s rs = .running s1 ∨ collectData p s rs = .returned s1 ∨
      collectData p s rs = .aborted s1) → s.lastTime ≤ s1.lastTime
  | [], s, s1, h => by
    simp [collectData] at h
    rw [h]
  | (os, time) :: rest, s, s1, h => by
    unfold collectData at h
    cases hb : loopBody p s os time with
    | running s2 =>
      rw [hb] at h
      simp only at h
      have ih := collectData_lastTime_le p rest s2 s1 h
      have hs := (loopBody_running p s s2 os time hb).2
      have hlt : s.lastTime < time := by
        by_contra hc
        simp [sample, hc] at hs
      rw [sample_of_lt p s _ time hlt] at hs
      simp only [Option.some.injEq] at hs
      have : s2.lastTime = time := by rw [← hs]
      omega
    | returned s2 =>
      rw [hb] at h
      simp only [LoopResult.returned.injEq, false_or, or_false, reduceCtorEq] at h
      unfold loopBody at hb
      simp only at hb
      split at hb
      · simp only [LoopResult.returned.injEq] at hb
        rw [← h, ← hb]
      · split at hb <;> simp at hb
    | aborted s2 =>
      rw [hb] at h
      simp only [LoopResult.aborted.injEq, false_or, reduceCtorEq] at h
      unfold loopBody at hb
      simp only at hb
      split at hb
      · simp at hb
      · split at hb
        · simp only [LoopResult.aborted.injEq] at hb
          rw [← h, ← hb]
        · simp at hb

/-- C6: the sample step goes through exactly when `lastTime < time`; it then
stores `time` as the new `lastTime`, which is strictly above the old value and
above the sentinel 0, whichever branch the sample takes; otherwise the
assertion fails, the loop body aborts and the shared data stays as it was.
Along the loop, as soon as one sample has been processed `lastTime` is strictly
above its value at the start. -/
theorem lastTime_strictly_increasing (p : Platform) (s : CpuData) (usage : Int) (time : Nat) :
    (s.lastTime < time →
      ∃ s1, sample p s usage time = some s1 ∧ s1.lastTime = time ∧
        s.lastTime < s1.lastTime ∧ 0 < s1.lastTime) ∧
    (¬ s.lastTime < time → sample p s usage time = none ∧
      ∀ os, currentUsage p os = usage → usage ≠ -1 → loopBody p s os time = .aborted s) ∧
    (∀ os rest s1, collectData p s ((os, time) :: rest) = .running s1 →
      s.lastTime < s1.lastTime) := by
  refine ⟨?_, ?_, ?_⟩
  · intro h
    refine ⟨_, sample_of_lt p s usage time h, rfl, h, ?_⟩
    simp only
    omega
  · intro h
    have hn : sample p s usage time = none := by simp [sample, h]
    refine ⟨hn, ?_⟩
    intro os hos hne
    unfold loopBody
    simp only
    rw [hos, if_neg hne, hn]
  · intro os rest s1 h
    unfold collectData at h
    cases hb : loopBody p s os time with
    | running s2 =>
      rw [hb] at h
      simp only at h
      have ih := collectData_lastTime_le p rest s2 s1 (Or.inl h)
      have hs := (loopBody_running p s s2 os time hb).2
      have hlt : s.lastTime < time := by
        by_contra hc
        simp [sample, hc] at hs
      rw [sample_of_lt p s _ time hlt] at hs
      simp only [Option.some.injEq] at hs
      have : s2.lastTime = time := by rw [← hs]
      omega
    | returned s2 => rw [hb] at h; simp at h
    | aborted s2 => rw [hb] at h; simp at h

theorem lastTime_strictly_increasing_witness :
    ∃ s1, sample .Linux
        { lastUsage := 7, lastTime := 1000, usage := Fp.zero, hz := Fp.zero, cores := 1 }
        9 2001 = some s1 ∧ s1.lastTime = 2001 ∧ 1000 < s1.lastTime ∧ 0 < s1.lastTime :=
  (lastTime_strictly_increasing .Linux
    { lastUsage := 7, lastTime := 1000, usage := Fp.zero, hz := Fp.zero, cores := 1 }
    9 2001).1 (by decide)

/-- C9: in the computing branch (not the first sample, no wraparound) the divisor
`timeRatio` is the `float` of the integer quotient `(time - lastTime) / 1000`; the
published value is the quotient by that divisor; the divisor is non-zero exactly
when `1000 ≤ time - lastTime`; below that the division is by zero and the
published value is not a finite number. -/
theorem timeRatio_integer_quotient (p : Platform) (s : CpuData) (usage : Int) (time : Nat)
    (hp : p.hasTicks = true) (hfirst : 0 < s.lastTime) (hlt : s.lastTime < time)
    (h64 : time < 2 ^ 64) (hnowrap : ¬ usage < (s.lastUsage : Int)) :
    timeRatio s time = Fp.ofNat binary32 ((time - s.lastTime) / 1000) ∧
    (∃ s1, sample p s usage time = some s1 ∧
      s1.usage = Fp.div binary32
        (Fp.div binary32 (Fp.div binary32 (Fp.ofNat binary32 (deltaUsage s usage)) s.hz)
          (Fp.ofNat binary32 s.cores))
        (timeRatio s time)) ∧
    ((timeRatio s time).isZero = false ↔ 1000 ≤ time - s.lastTime) ∧
    (time - s.lastTime < 1000 →
      ∀ s1, sample p s usage time = some s1 → s1.usage.isFinite = false) := by
  have hdt : deltaTime s time = time - s.lastTime := by
    unfold deltaTime
    omega
  have htr : timeRatio s time = Fp.ofNat binary32 ((time - s.lastTime) / 1000) := by
    unfold timeRatio
    rw [hdt]
    rfl
  have hsample : sample p s usage time = some
      { s with usage := ratio s usage time, lastUsage := (usage % 2 ^ 32).toNat,
               lastTime := time } := by
    rw [sample_of_lt p s usage time hlt, if_pos hfirst, if_neg hnowrap, if_pos hp]
  refine ⟨htr, ⟨_, hsample, rfl⟩, ?_, ?_⟩
  · rw [htr, ofNat_isZero binary32 (by decide) (by decide)]
    simp only [decide_eq_false_iff_not]
    omega
  · intro hsmall s1 hs1
    rw [hsample] at hs1
    simp only [Option.some.injEq] at hs1
    rw [← hs1]
    simp only
    unfold ratio
    rw [htr]
    have hz : (time - s.lastTime) / 1000 = 0 := by omega
    rw [hz]
    have h0 : Fp.ofNat binary32 0 = .fin false 0 := by
      simp [Fp.ofNat, Fp.pack, Format.round]
    rw [h0]
    exact div_zero_not_finite _ _ _

/-! ## Sign of the published value -/

theorem pack_nonNeg (F : Format) (q : ℚ) : (Fp.pack F false q).NonNeg := by
  unfold Fp.pack
  cases hr : F.round q with
  | none => simp [Fp.NonNeg]
  | some r => exact ⟨rfl, round_nonneg F q r hr⟩

theorem div_nonNeg (F : Format) (a b : Fp) (ha : a.NonNeg) (hb : b.NonNeg) :
    (Fp.div F a b).NonNeg := by
  cases a with
  | nan => simp [Fp.div, Fp.NonNeg]
  | inf s =>
    cases b with
    | nan => simp [Fp.div, Fp.NonNeg]
    | inf t => simp [Fp.div, Fp.NonNeg]
    | fin t m =>
      simp only [Fp.NonNeg] at ha hb
      simp [Fp.div, Fp.NonNeg, ha, hb.1]
  | fin s m =>
    cases b with
    | nan => simp [Fp.div, Fp.NonNeg]
    | inf t =>
      simp only [Fp.NonNeg] at ha hb
      simp [Fp.div, Fp.NonNeg, ha.1, hb]
    | fin t n =>
      simp only [Fp.NonNeg] at ha hb
      simp only [Fp.div]
      split
      · split <;> simp [Fp.NonNeg, ha.1, hb.1]
      · rw [ha.1, hb.1]
        exact pack_nonNeg F _

theorem ratio_nonNeg (s : CpuData) (usage : Int) (time : Nat) (h : s.hz.NonNeg) :
    (ratio s usage time).NonNeg := by
  unfold ratio timeRatio Fp.ofNat
  exact div_nonNeg _ _ _
    (div_nonNeg _ _ _ (div_nonNeg _ _ _ (pack_nonNeg _ _) h) (pack_nonNeg _ _))
    (pack_nonNeg _ _)

theorem sample_nonNeg (p : Platform) (s s1 : CpuData) (usage : Int) (time : Nat)
    (h : s.usage.NonNeg ∧ s.hz.NonNeg) (hs : sample p s usage time = some s1) :
    s1.usage.NonNeg ∧ s1.hz.NonNeg := by
  have hlt : s.lastTime < time := by
    by_contra hc
    simp [sample, hc] at hs
  rw [sample_of_lt p s usage time hlt] at hs
  simp only [Option.some.injEq] at hs
  rw [← hs]
  refine ⟨?_, h.2⟩
  simp only
  split
  · split
    · exact ⟨rfl, le_refl _⟩
    · split
      · exact ratio_nonNeg s usage time h.2
      · exact h.1
  · exact h.1

theorem one_lt_pack_neg (F : Format) (m : ℚ) : Fp.lt Fp.one (Fp.pack F true m) = false := by
  unfold Fp.pack
  cases hr : F.round m with
  | none => rfl
  | some r =>
    have := round_nonneg F m r hr
    simp only [Fp.lt, Fp.one, Fp.signed, decide_eq_false_iff_not]
    simp only [if_true, Bool.false_eq_true, if_false]
    linarith

theorem one_lt_pack_le_one (F : Format) (hmin : F.emin ≤ 0) (hprec : 1 ≤ F.prec)
    (hmax : 0 ≤ F.emax) (m : ℚ) (h0 : 0 ≤ m) (h1 : m ≤ 1) :
    ∃ r, Fp.pack F false m = .fin false r ∧ 0 ≤ r ∧ r ≤ 1 := by
  obtain ⟨r, hr, hr0, hr1⟩ := round_le_one F hmin hprec hmax m h0 h1
  exact ⟨r, by simp [Fp.pack, hr], hr0, hr1⟩

theorem convert_pack_neg (F G : Format) (m : ℚ) :
    Fp.lt Fp.one (Fp.convert G (Fp.pack F true m)) = false := by
  unfold Fp.pack
  cases hr : F.round m with
  | none => rfl
  | some r => exact one_lt_pack_neg G r

/-- The value `1. - usage` returned as `float` is not above `1.0` when `usage` is not
below zero. -/
theorem accessor_not_above_one (x : Fp) (hx : x.NonNeg) :
    Fp.lt Fp.one (Fp.convert binary32 (Fp.sub binary64 Fp.one x)) = false := by
  cases x with
  | nan => rfl
  | inf s =>
    simp only [Fp.NonNeg] at hx
    subst hx
    rfl
  | fin s m =>
    simp only [Fp.NonNeg] at hx
    obtain ⟨hs, hm⟩ := hx
    subst hs
    simp only [Fp.sub, Fp.one, Fp.signed, Bool.false_eq_true, if_false]
    split
    · simp [Fp.convert, Fp.pack, Format.round, Fp.lt, Fp.signed]
    · rename_i hv
      rcases lt_or_gt_of_ne hv with hneg | hpos
      · rw [decide_eq_true hneg]
        exact convert_pack_neg binary64 binary32 _
      · have hnn : ¬ (1 - m < 0) := by linarith
        rw [decide_eq_false hnn, abs_of_pos hpos]
        obtain ⟨r, hr, hr0, hr1⟩ := one_lt_pack_le_one binary64 (by decide) (by decide)
          (by decide) (1 - m) hpos.le (by linarith)
        rw [hr]
        simp only [Fp.convert]
        obtain ⟨r2, hr2, _, hr21⟩ := one_lt_pack_le_one binary32 (by decide) (by decide)
          (by decide) r hr0 hr1
        rw [hr2]
        simp only [Fp.lt, Fp.signed, Bool.false_eq_true, if_false, decide_eq_false_iff_not]
        linarith

theorem ofInt_nonNeg (F : Format) (n : Int) (h : 0 ≤ n) : (Fp.ofInt F n).NonNeg := by
  unfold Fp.ofInt
  have : ¬ n < 0 := by omega
  rw [decide_eq_false this]
  exact pack_nonNeg F _

theorem iterate_nonNeg (p : Platform) (P : Proc) (os : OsReply) (time : Nat)
    (h : P.sData.usage.NonNeg ∧ P.sData.hz.NonNeg) :
    (iterate p P os time).sData.usage.NonNeg ∧ (iterate p P os time).sData.hz.NonNeg := by
  unfold iterate
  split
  · cases hb : loopBody p P.sData os time with
    | running s1 =>
      simp only
      exact sample_nonNeg p P.sData s1 _ time h (loopBody_running p _ _ os time hb).2
    | returned s1 => exact h
    | aborted s1 => exact h
  · exact h

theorem run_not_above_one (p : Platform) (sys : Sysconf) (hz : 0 ≤ sys.clkTck) :
    ∀ (evs : List Event) (P : Proc), P.sData.usage.NonNeg ∧ P.sData.hz.NonNeg →
      ∀ v ∈ (run p sys P evs).1, Fp.lt Fp.one v = false
  | [], P, _, v, hv => by simp [run] at hv
  | ev :: rest, P, hP, v, hv => by
    unfold run at hv
    split at hv
    · simp at hv
    · cases ev with
      | call =>
        simp only [List.mem_cons] at hv
        have hP1 : (if P.sFlag then P else initOnce p sys P).sData.usage.NonNeg ∧
            (if P.sFlag then P else initOnce p sys P).sData.hz.NonNeg := by
          split
          · exact hP
          · refine ⟨⟨rfl, le_refl _⟩, ?_⟩
            simp only [initOnce]
            split
            · exact ofInt_nonNeg _ _ hz
            · exact hP.2
        rcases hv with hv | hv
        · rw [hv]
          exact accessor_not_above_one _ hP1.1
        · exact run_not_above_one p sys hz rest _ hP1 v hv
      | iter os time =>
        simp only at hv
        exact run_not_above_one p sys hz rest _ (iterate_nonNeg p P os time hP) v hv

/-- C8 (as stated, refuted): whatever the platform, with `hz > 0` and `coreCount > 0`
no schedule of calls and samples makes `CpuUsage::usage` return a value above `1.0`. -/
theorem usage_above_one_impossible :
    ¬ ∃ (p : Platform) (sys : Sysconf) (evs : List Event) (v : Fp),
        0 < sys.clkTck ∧ 0 < sys.nprocessorsOnln ∧
        v ∈ (run p sys Proc.initial evs).1 ∧ Fp.lt Fp.one v = true := by
  rintro ⟨p, sys, evs, v, hz, _, hv, hlt⟩
  have h := run_not_above_one p sys hz.le evs Proc.initial
    ⟨⟨rfl, le_refl _⟩, ⟨rfl, le_refl _⟩⟩ v hv
  rw [h] at hlt
  exact absurd hlt (by decide)

/-- C8 (amended): with `hz > 0` the value returned by `CpuUsage::usage` never exceeds
`1.0`, on every platform and schedule; it is not clamped from below: with `hz = 100`
and four cores, a counter that rises by 800 within 1000 ms makes it return `-1.0`. -/
theorem usage_unclamped_below_only (p : Platform) (sys : Sysconf) (hz : 0 < sys.clkTck) :
    (∀ (evs : List Event) (v : Fp),
        v ∈ (run p sys Proc.initial evs).1 → Fp.lt Fp.one v = false) ∧
    (run .Linux ⟨100, 4⟩ Proc.initial
        [.call, .iter (procStatIdle 5000) 7000, .iter (procStatIdle 5800) 8000, .call]).1
      = [Fp.one, Fp.fin true 1] ∧
    Fp.lt (Fp.fin true 1) Fp.zero = true := by
  refine ⟨?_, by decide!, by decide!⟩
  intro evs v hv
  exact run_not_above_one p sys hz.le evs Proc.initial
    ⟨⟨rfl, le_refl _⟩, ⟨rfl, le_refl _⟩⟩ v hv

theorem usage_unclamped_below_only_witness :
    (0 : Int) < 100 ∧ Fp.lt Fp.one (Fp.inf true) = false :=
  ⟨by decide,
    (usage_unclamped_below_only .Darwin ⟨100, 8⟩ (by decide)).1
      [.call, .iter (hostInfoFour 0) 10, .iter (hostInfoFour 7) 499, .call]
      (Fp.inf true) (by decide!)⟩

theorem timeRatio_integer_quotient_witness :
    timeRatio { lastUsage := 0, lastTime := 1000, usage := Fp.zero,
                hz := Fp.fin false 100, cores := 1 } 2500
      = Fp.ofNat binary32 ((2500 - 1000) / 1000) :=
  (timeRatio_integer_quotient .Linux
    { lastUsage := 0, lastTime := 1000, usage := Fp.zero, hz := Fp.fin false 100, cores := 1 }
    150 2500 (by decide) (by decide) (by decide) (by decide) (by decide)).1

/-! ## The accessor and the life of the collector thread -/

/-- C3: once initialization has happened, `CpuUsage::usage` returns the `float` value
of `1. - sData.usage` and leaves the process (flag, shared data, thread) as it was;
with `0.3f` published it returns `0.7f`. -/
theorem usage_returns_one_minus_ratio (p : Platform) (sys : Sysconf) (P : Proc)
    (h : P.sFlag = true) :
    (CpuUsage.usage p sys P).1
      = Fp.convert binary32 (Fp.sub binary64 Fp.one P.sData.usage) ∧
    (CpuUsage.usage p sys P).2 = P ∧
    (P.sData.usage = Fp.ofRat binary32 (3 / 10) →
      (CpuUsage.usage p sys P).1 = Fp.ofRat binary32 (7 / 10)) := by
  have e : (if P.sFlag then P else initOnce p sys P) = P := by rw [h]; rfl
  refine ⟨?_, ?_, ?_⟩
  · simp only [CpuUsage.usage, e]
  · simp only [CpuUsage.usage, e]
  · intro h3
    simp only [CpuUsage.usage, e, h3]
    decide!

theorem usage_returns_one_minus_ratio_witness :
    (CpuUsage.usage .Linux ⟨100, 4⟩
        { sFlag := true
          sData := { lastUsage := 9, lastTime := 5000, usage := Fp.ofRat binary32 (3 / 10),
                     hz := Fp.fin false 100, cores := 4 }
          thread := .looping
          started := 1 }).1 = Fp.ofRat binary32 (7 / 10) :=
  (usage_returns_one_minus_ratio .Linux ⟨100, 4⟩
    { sFlag := true
      sData := { lastUsage := 9, lastTime := 5000, usage := Fp.ofRat binary32 (3 / 10),
                 hz := Fp.fin false 100, cores := 4 }
      thread := .looping
      started := 1 } rfl).2.2 rfl

theorem run_append (p : Platform) (sys : Sysconf) : ∀ (a b : List Event) (P : Proc),
    run p sys P (a ++ b)
      = ((run p sys P a).1 ++ (run p sys (run p sys P a).2 b).1,
         (run p sys (run p sys P a).2 b).2)
  | [], b, P => by simp [run]
  | ev :: a, b, P => by
    by_cases hab : P.thread = .aborted
    · have h1 : ∀ l, run p sys P l = ([], P) := by
        intro l
        cases l with
        | nil => rfl
        | cons x l => simp [run, hab]
      rw [h1, h1, h1]
      rfl
    · cases ev with
      | call =>
        have ih := run_append p sys a b (CpuUsage.usage p sys P).2
        simp only [List.cons_append, run, hab, if_false, List.append_eq, ih]
      | iter os time =>
        have ih := run_append p sys a b (iterate p P os time)
        simp only [List.cons_append, run, hab, if_false, List.append_eq, ih]

theorem run_returned (p : Platform) (sys : Sysconf) : ∀ (evs : List Event) (P : Proc),
    P.sFlag = true → P.thread = .returned →
      (run p sys P evs).2 = P ∧
      ∀ v ∈ (run p sys P evs).1,
        v = Fp.convert binary32 (Fp.sub binary64 Fp.one P.sData.usage)
  | [], P, _, _ => by simp [run]
  | ev :: rest, P, hf, ht => by
    have hna : ¬ P.thread = .aborted := by rw [ht]; decide
    have e : (if P.sFlag then P else initOnce p sys P) = P := by rw [hf]; rfl
    cases ev with
    | call =>
      have ih := run_returned p sys rest P hf ht
      simp only [run, hna, if_false, CpuUsage.usage, e, List.mem_cons]
      refine ⟨ih.1, ?_⟩
      rintro v (hv | hv)
      · exact hv
      · exact ih.2 v hv
    | iter os time =>
      have hi : iterate p P os time = P := by
        unfold iterate
        rw [ht]
      have ih := run_returned p sys rest P hf ht
      simp only [run, hna, if_false, hi]
      exact ih

theorem iterate_failed_read (p : Platform) (P : Proc) (os : OsReply) (time : Nat)
    (ht : P.thread = .looping) (hfail : currentUsage p os = -1) :
    iterate p P os time = { P with thread := .returned } := by
  unfold iterate
  rw [ht]
  simp only [loopBody, hfail, if_true]

theorem collectData_append_failed (p : Platform) (os : OsReply) (t : Nat)
    (hfail : currentUsage p os = -1) (post : List (OsReply × Nat)) :
    ∀ (pre : List (OsReply × Nat)) (s : CpuData),
      collectData p s (pre ++ (os, t) :: post)
        = match collectData p s pre with
          | .running s1 => .returned s1
          | r => r
  | [], s => by
    simp [collectData, loopBody, hfail]
  | (os1, t1) :: pre, s => by
    simp only [List.cons_append, collectData]
    cases hb : loopBody p s os1 t1 with
    | running s1 =>
      simp only
      exact collectData_append_failed p os t hfail post pre s1
    | returned s1 => rfl
    | aborted s1 => rfl

theorem freeze_on_failure_aux (p : Platform) (sys : Sysconf) (os : OsReply) (t : Nat)
    (hfail : currentUsage p os = -1) (P : Proc) (evs : List Event)
    (hf : P.sFlag = true) (ht : P.thread = .looping) :
    (run p sys P (.iter os t :: evs)).2 = { P with thread := .returned } ∧
    ∀ v ∈ (run p sys P (.iter os t :: evs)).1,
      v = Fp.convert binary32 (Fp.sub binary64 Fp.one P.sData.usage) := by
  have hna : ¬ P.thread = .aborted := by rw [ht]; decide
  have h := run_returned p sys evs { P with thread := .returned } hf rfl
  simp only [run, hna, if_false, iterate_failed_read p P os t ht hfail]
  exact h

/-- C4: a failed read makes `collectData` return: whatever readings would follow, the
loop result is the one reached before the failure, now `returned`, with the shared
data of that moment; in the process, after the failed read every later event
leaves the shared data untouched and every later call of the accessor returns
the same value. -/
theorem freeze_on_failure (p : Platform) (sys : Sysconf) (os : OsReply) (t : Nat)
    (hfail : currentUsage p os = -1) :
    (∀ (s : CpuData) (pre post : List (OsReply × Nat)),
      collectData p s (pre ++ (os, t) :: post)
        = match collectData p s pre with
          | .running s1 => .returned s1
          | r => r) ∧
    (∀ (P : Proc) (evs : List Event), P.sFlag = true → P.thread = .looping →
      (run p sys P (.iter os t :: evs)).2 = { P with thread := .returned } ∧
      ∀ v ∈ (run p sys P (.iter os t :: evs)).1,
        v = Fp.convert binary32 (Fp.sub binary64 Fp.one P.sData.usage)) := by
  exact ⟨fun s pre post => collectData_append_failed p os t hfail post pre s,
    fun P evs hf ht => freeze_on_failure_aux p sys os t hfail P evs hf ht⟩

theorem freeze_on_failure_witness :
    collectData .Linux
        { lastUsage := 0, lastTime := 0, usage := Fp.zero, hz := Fp.fin false 100, cores := 1 }
        ([(procStatIdle 10, 1000), (procStatIdle 60, 2000)] ++
          (⟨none, none⟩, 3000) :: [(procStatIdle 90, 4000)])
      = match collectData .Linux
            { lastUsage := 0, lastTime := 0, usage := Fp.zero, hz := Fp.fin false 100,
              cores := 1 }
            [(procStatIdle 10, 1000), (procStatIdle 60, 2000)] with
        | .running s1 => .returned s1
        | r => r :=
  (freeze_on_failure .Linux ⟨100, 1⟩ ⟨none, none⟩ 3000 (by decide)).1 _ _ _

theorem accessor_at_zero :
    Fp.convert binary32 (Fp.sub binary64 Fp.one Fp.zero) = Fp.one := by decide!

theorem run_calls_only (p : Platform) (sys : Sysconf) : ∀ (n : Nat) (P : Proc),
    P.sFlag = true → P.thread ≠ .aborted → P.sData.usage = Fp.zero →
      run p sys P (List.replicate n .call) = (List.replicate n Fp.one, P)
  | 0, P, _, _, _ => rfl
  | n + 1, P, hf, ht, hu => by
    have e : (if P.sFlag then P else initOnce p sys P) = P := by rw [hf]; rfl
    simp only [List.replicate_succ, run, ht, if_false, CpuUsage.usage, e, hu, accessor_at_zero,
      run_calls_only p sys n P hf ht hu]

theorem run_first_calls (p : Platform) (sys : Sysconf) (n : Nat) :
    run p sys Proc.initial (List.replicate (n + 1) .call)
      = (List.replicate (n + 1) Fp.one, initOnce p sys Proc.initial) := by
  have h := run_calls_only p sys n (initOnce p sys Proc.initial) rfl (by simp [initOnce]) rfl
  have e : (if Proc.initial.sFlag then Proc.initial else initOnce p sys Proc.initial)
      = initOnce p sys Proc.initial := rfl
  have hna : ¬ Proc.initial.thread = .aborted := by decide
  have hz : (initOnce p sys Proc.initial).sData.usage = Fp.zero := rfl
  rw [List.replicate_succ, run]
  simp only [CpuUsage.usage, e, h, hna, if_false, hz, accessor_at_zero, List.replicate_succ]

theorem run_other_platform (sys : Sysconf) : ∀ (evs : List Event) (P : Proc),
    P.sData.usage = Fp.zero → ∀ v ∈ (run .Other sys P evs).1, v = Fp.one
  | [], P, _, v, hv => by simp [run] at hv
  | ev :: rest, P, hu, v, hv => by
    unfold run at hv
    split at hv
    · simp at hv
    · cases ev with
      | call =>
        have hu1 : (if P.sFlag then P else initOnce .Other sys P).sData.usage = Fp.zero := by
          split
          · exact hu
          · rfl
        simp only [List.mem_cons, CpuUsage.usage, hu1, accessor_at_zero] at hv
        rcases hv with hv | hv
        · exact hv
        · exact run_other_platform sys rest _ hu1 v hv
      | iter os time =>
        simp only at hv
        have hi : (iterate .Other P os time).sData.usage = Fp.zero := by
          unfold iterate
          split
          · simp only [loopBody, currentUsage, if_true]
            exact hu
          · exact hu
        exact run_other_platform sys rest _ hi v hv

/-- C5: when the first counter read fails, every call of `CpuUsage::usage`, the first
one included, returns exactly `1.0`: the calls made before the thread has read
anything, and all calls after the failed read, whatever is scheduled later.  On a
platform other than Linux and Darwin `currentUsage` is the constant `-1`, and there
every call in every schedule returns `1.0`. -/
theorem first_read_fails_usage_one (p : Platform) (sys : Sysconf) :
    (∀ (n : Nat) (os : OsReply) (t : Nat) (post : List Event), currentUsage p os = -1 →
      (∀ v ∈ (run p sys Proc.initial (List.replicate (n + 1) .call ++ .iter os t :: post)).1,
        v = Fp.one) ∧
      (run p sys Proc.initial
          (List.replicate (n + 1) .call ++ .iter os t :: post)).2.sData.usage = Fp.zero) ∧
    (∀ n : Nat, (run p sys Proc.initial (List.replicate n .call)).1
      = List.replicate n Fp.one) ∧
    (∀ os : OsReply, currentUsage .Other os = -1) ∧
    (∀ (evs : List Event), ∀ v ∈ (run .Other sys Proc.initial evs).1, v = Fp.one) := by
  refine ⟨?_, ?_, fun _ => rfl, fun evs v hv => run_other_platform sys evs _ rfl v hv⟩
  · intro n os t post hfail
    have hfr := (freeze_on_failure_aux p sys os t hfail (initOnce p sys Proc.initial) post
      rfl rfl)
    rw [run_append, run_first_calls]
    simp only
    refine ⟨?_, ?_⟩
    · intro v hv
      rcases List.mem_append.mp hv with h1 | h1
      · exact List.eq_of_mem_replicate h1
      · rw [hfr.2 v h1]
        exact accessor_at_zero
    · rw [hfr.1]
      rfl
  · intro n
    cases n with
    | zero => rfl
    | succ n => rw [run_first_calls]

theorem first_read_fails_usage_one_witness :
    currentUsage .Linux ⟨none, none⟩ = -1 ∧
    ∀ v ∈ (run .Linux ⟨100, 4⟩ Proc.initial
        (List.replicate (1 + 1) .call ++
          .iter ⟨none, none⟩ 1000 :: [.call, .iter (procStatIdle 5) 2000, .call])).1,
      v = Fp.one :=
  ⟨by decide, ((first_read_fails_usage_one .Linux ⟨100, 4⟩).1 1 ⟨none, none⟩ 1000
    [.call, .iter (procStatIdle 5) 2000, .call] (by decide)).1⟩

/-- C1 (the code at the failing input): with `hz = 100` and one core, a counter that
rises by 150 in 1500 ms is published as `1.5`, the quotient by `float(1500 / 1000) = 1`,
where the formula with the exact ratio `1500 / 1000 = 1.5` gives `1.0`. -/
theorem elapsed_ratio_truncated :
    (run .Linux ⟨100, 1⟩ Proc.initial
        [.call, .iter (procStatIdle 1000) 5000, .iter (procStatIdle 1150) 6500]).2.sData.usage
      = Fp.fin false (3 / 2) ∧
    Fp.div binary32
        (Fp.div binary32 (Fp.div binary32 (Fp.ofNat binary32 (1150 - 1000))
          (Fp.ofInt binary32 100)) (Fp.ofNat binary32 1))
        (Fp.ofRat binary32 ((6500 - 5000) / 1000))
      = Fp.fin false 1 := by
  constructor <;> decide!

/-- C2 (the code at the failing input): on Darwin the counter `2 ^ 32 + 5` is followed
by the lower counter `2 ^ 32 + 3`; the stored `lastUsage` is `5`, the test
`lastUsage > usage` is false and the value published is computed from the
delta `2 ^ 32 - 2`, not `0`. -/
theorem lower_counter_not_detected :
    currentUsage .Darwin (hostInfoFour 5) = 2 ^ 32 + 5 ∧
    currentUsage .Darwin (hostInfoFour 3) = 2 ^ 32 + 3 ∧
    (run .Darwin ⟨100, 4⟩ Proc.initial
        [.call, .iter (hostInfoFour 5) 5000]).2.sData.lastUsage = 5 ∧
    (run .Darwin ⟨100, 4⟩ Proc.initial
        [.call, .iter (hostInfoFour 5) 5000, .iter (hostInfoFour 3) 6000]).2.sData.usage
      = Fp.fin false 10737418 ∧
    (run .Darwin ⟨100, 4⟩ Proc.initial
        [.call, .iter (hostInfoFour 5) 5000, .iter (hostInfoFour 3) 6000, .call]).1
      = [Fp.one, Fp.fin true 10737417] := by
  refine ⟨by decide, by decide, by decide!, by decide!, by decide!⟩

end Rct
